import Mathlib

/-!
Verification of the stockfisher repository (src/stockfisher.py).

The Python source is shallowly embedded:
* `Board` is a `List Char` of 64 cells (`' '` = empty, a piece letter otherwise),
  mirroring `self.board`.
* `place_random_pieces` threads the random source explicitly: `picks` supplies,
  per placed symbol, a natural number; the chosen cell is the
  `pick % candidates.length`-th element of the current candidate list, so every
  outcome of Python's `random.choice` over the candidate set corresponds to some
  `picks` value and vice versa.  `random.choice` on an empty candidate list
  raises `IndexError`; the embedding returns `Except.error PlaceError.emptyChoice`.
* `fen` returns `Option String`; `none` models the `ValueError` raised on a bad
  `mover` argument.
* The `Stockfish` session class becomes a pure state machine over `Session`
  (the subprocess handle is a generation number, commands sent are logged).
  Lines read from the process's stdout are an explicit input script
  (`List String`), `poll()` results during `ping` are an explicit
  `List (Option Int)` (one entry per loop iteration, `none` = process alive),
  and a blocking read past the end of the script is modelled as the outer
  `Option` being `none`.  Python exceptions become `Except SfError`.
-/

/-! ### Board (class Board) -/

abbrev Board := List Char

/-- `Board.__init__` / `mk_empty`: all 64 cells empty. -/
def mk_empty : Board := List.replicate 64 ' '

/-- `mk_initial`: the standard initial arrangement. -/
def mk_initial : Board :=
  ['r', 'n', 'b', 'q', 'k', 'b', 'n', 'r',
   'p', 'p', 'p', 'p', 'p', 'p', 'p', 'p',
   ' ', ' ', ' ', ' ', ' ', ' ', ' ', ' ',
   ' ', ' ', ' ', ' ', ' ', ' ', ' ', ' ',
   ' ', ' ', ' ', ' ', ' ', ' ', ' ', ' ',
   ' ', ' ', ' ', ' ', ' ', ' ', ' ', ' ',
   'P', 'P', 'P', 'P', 'P', 'P', 'P', 'P',
   'R', 'N', 'B', 'Q', 'K', 'B', 'N', 'R']

inductive PlaceError where
  /-- `random.choice(list(candidate_positions))` raised `IndexError`:
  the candidate set was empty while a symbol still needed placement. -/
  | emptyChoice
deriving DecidableEq, Repr

/-- `empty_positions = set(i for i in range(64) if self.board[i] == ' ')`. -/
def empty_positions (b : Board) : List Nat :=
  (List.range 64).filter (fun i => b.getD i ' ' == ' ')

/-- The candidate cells for one symbol:
`empty_positions & valid_pawn_positions` for a pawn symbol (with
`valid_pawn_positions = set(range(8, 56))`), all empty cells otherwise. -/
def candidate_positions (empties : List Nat) (piece : Char) : List Nat :=
  if piece = 'p' ∨ piece = 'P' then
    empties.filter (fun i => decide (8 ≤ i ∧ i < 56))
  else
    empties

/-- The `for piece in pieces` loop body of `place_random_pieces`, with the
random source made explicit (see the module docstring). -/
def placeLoop : Board → List Nat → List Char → List Nat → Except PlaceError Board
  | b, _, [], _ => .ok b
  | b, empties, piece :: rest, picks =>
    let cands := candidate_positions empties piece
    if cands.length = 0 then
      .error .emptyChoice
    else
      let pos := cands.getD (picks.headD 0 % cands.length) 0
      placeLoop (b.set pos piece) (empties.erase pos) rest picks.tail

/-- `place_random_pieces(self, pieces)`. -/
def place_random_pieces (b : Board) (pieces : String) (picks : List Nat) :
    Except PlaceError Board :=
  placeLoop b (empty_positions b) pieces.toList picks

/-- One iteration of the inner `for x in range(8)` loop of `fen`:
`rank` is the list of one-character strings built so far, `f` the cell content. -/
def fenStep (rank : List Char) (f : Char) : List Char :=
  if f = ' ' then
    match rank.getLast? with
    | some d =>
      if "1234567".data.contains d then
        rank.dropLast ++ [Char.ofNat (d.toNat + 1)]
      else
        rank ++ ['1']
    | none => rank ++ ['1']
  else
    rank ++ [f]

/-- The cells of rank `y` (top to bottom), `self.board[y * 8 + x]` for `x = 0..7`. -/
def rankCells (b : Board) (y : Nat) : List Char :=
  (List.range 8).map (fun x => b.getD (y * 8 + x) ' ')

/-- The encoding of one rank produced by the inner loop of `fen`. -/
def fenRank (b : Board) (y : Nat) : List Char :=
  (rankCells b y).foldl fenStep []

/-- `fen(self, mover)`: `none` models the `ValueError` raised when `mover`
is neither `"w"` nor `"b"`; otherwise the string
`"{} {} - - 0 1".format("/".join(ranks), mover)`. -/
def fen (b : Board) (mover : String) : Option String :=
  if mover ≠ "w" ∧ mover ≠ "b" then
    none
  else
    some (String.mk (List.intercalate ['/'] ((List.range 8).map (fenRank b)) ++
      ' ' :: mover.data ++ [' ', '-', ' ', '-', ' ', '0', ' ', '1']))

/-! ### Specification-side definitions for the position string -/

/-- The decimal digit character for `n ≤ 9`. -/
def digitChar (n : Nat) : Char := Char.ofNat (48 + n)

/-- Reference run-length encoder for one rank: `k` counts the empty cells seen
immediately before the current position; a maximal run of `k` empties is
emitted as the single digit `digitChar k`; every other character is emitted
as itself, never merged. -/
def rleAux : Nat → List Char → List Char
  | 0, [] => []
  | k + 1, [] => [digitChar (k + 1)]
  | k, c :: rest =>
    if c = ' ' then
      rleAux (k + 1) rest
    else
      match k with
      | 0 => c :: rleAux 0 rest
      | k' + 1 => digitChar (k' + 1) :: c :: rleAux 0 rest

/-- Reference run-length encoding of a rank. -/
def rlEncode (cells : List Char) : List Char := rleAux 0 cells

/-- The twelve piece letters of the data model. -/
def pieceChars : List Char :=
  ['p', 'n', 'b', 'r', 'q', 'k', 'P', 'N', 'B', 'R', 'Q', 'K']

/-- A board cell is valid when it is empty or holds one of the twelve piece
letters (the data model's invariant). -/
def validCell (c : Char) : Prop := c = ' ' ∨ c ∈ pieceChars

instance (c : Char) : Decidable (validCell c) := by
  unfold validCell; infer_instance

/-- A valid board: every cell empty or a piece letter. -/
def validBoard (b : Board) : Prop := ∀ c ∈ b, validCell c

instance (b : Board) : Decidable (validBoard b) := by
  unfold validBoard; infer_instance

/-- Reference decoding of one position-string character: a piece letter stands
for one occupied cell, a digit `'1'`-`'8'` for that many empty cells. -/
def expandCell (c : Char) : Option (List Char) :=
  if c ∈ pieceChars then
    some [c]
  else if '1' ≤ c ∧ c ≤ '8' then
    some (List.replicate (c.toNat - 48) ' ')
  else
    none

/-- Reference decoding of one rank segment. -/
def expandSeg : List Char → Option (List Char)
  | [] => some []
  | c :: rest =>
    match expandCell c, expandSeg rest with
    | some xs, some ys => some (xs ++ ys)
    | _, _ => none

/-- Reference decoder for the position string format
`<rank8>/<rank7>/.../<rank1> <w|b> - - 0 1`: recovers the 64-cell board and
the mover, requiring each of the 8 rank segments to expand to exactly 8 cells. -/
def decodeFen (s : String) : Option (Board × String) :=
  match s.data.splitOn ' ' with
  | [bp, mv, d1, d2, z, o] =>
    if (mv = ['w'] ∨ mv = ['b']) ∧ d1 = ['-'] ∧ d2 = ['-'] ∧ z = ['0'] ∧ o = ['1'] then
      let segs := bp.splitOn '/'
      if segs.length = 8 then
        match segs.mapM expandSeg with
        | some ranks =>
          if ranks.all (fun r => r.length == 8) then
            some (ranks.flatten, String.mk mv)
          else
            none
        | none => none
      else
        none
    else
      none
  | _ => none

/-- The rank segments of a position string: the part before the first blank,
split at `'/'`. -/
def rankSegments (s : String) : List (List Char) :=
  (s.data.takeWhile (fun c => c ≠ ' ')).splitOn '/'

/-- The number of piece letters in the board portion of a position string. -/
def pieceLetterCount (s : String) : Nat :=
  (s.data.takeWhile (fun c => c ≠ ' ')).countP (fun c => c ∈ pieceChars)

/-- The number of pawn symbols (`'p'` or `'P'`) in a string. -/
def pawnCount (pieces : String) : Nat :=
  pieces.toList.countP (fun c => c = 'p' ∨ c = 'P')

/-! ### Stockfish session (class Stockfish) -/

/-- Python's `line.startswith(p)`. -/
def strStartsWith (l p : String) : Bool := p.data.isPrefixOf l.data

/-- Python's `str.split()` with no argument: split on runs of whitespace,
discarding empty words.  `cur` holds the characters of the word being built,
in reverse. -/
def pyWordsAux : List Char → List Char → List (List Char)
  | [], cur => if cur = [] then [] else [cur.reverse]
  | c :: rest, cur =>
    if c.isWhitespace then
      if cur = [] then pyWordsAux rest [] else cur.reverse :: pyWordsAux rest []
    else
      pyWordsAux rest (c :: cur)

/-- `info.split()` in `evaluate`. -/
def pySplit (s : String) : List String :=
  (pyWordsAux s.data []).map String.mk

/-- The exceptions of the Python source that the session layer can raise. -/
inductive SfError where
  /-- `RuntimeError` (fatal integrity error). -/
  | runtimeError
  /-- `StockfishException`, raised by `ping` when `poll()` shows the process
  exited with this return code. -/
  | stockfishException (rc : Int)
  /-- `ValueError`, raised by `info_split.index("score")` when the token is
  absent. -/
  | valueError
deriving DecidableEq, Repr

/-- Observable side effects of the session on its subprocess. -/
inductive SfEvent where
  /-- `subprocess.Popen(...)`: a process with this generation number started. -/
  | spawned (g : Nat)
  /-- `self.stockfish.wait()`: the process with this generation number was
  joined and its exit status reaped. -/
  | reaped (g : Nat)
  /-- `self._send_command(c)`. -/
  | cmd (c : String)
deriving DecidableEq, Repr

/-- The state of a `Stockfish` object: `stockfish` is `self.stockfish`
(`none` = no live subprocess, `some g` = live process of generation `g`),
`nextId` numbers the next process to be spawned, `log` records side effects. -/
structure Session where
  stockfish : Option Nat
  nextId : Nat
  log : List SfEvent
deriving DecidableEq, Repr

/-- `_send_command`: `RuntimeError` when there is no subprocess. -/
def send_command (s : Session) (c : String) : Except SfError Session :=
  match s.stockfish with
  | none => .error .runtimeError
  | some _ => .ok { s with log := s.log ++ [.cmd c] }

/-- The `while True` read loop of `open`: consume lines until `"uciok"`;
`none` = the script ran out, i.e. the call blocks forever. -/
def readUntilUciok : List String → Option (List String)
  | [] => none
  | l :: rest => if l = "uciok" then some rest else readUntilUciok rest

/-- `open`: `RuntimeError` if a subprocess already exists, otherwise spawn a
fresh process, send `"uci"` and read until `"uciok"`.  `stream` is the new
process's output script; the unread remainder is returned. -/
def sfOpen (s : Session) (stream : List String) :
    Option (Except SfError (Session × List String)) :=
  match s.stockfish with
  | some _ => some (.error .runtimeError)
  | none =>
    let s1 : Session :=
      ⟨some s.nextId, s.nextId + 1, s.log ++ [.spawned s.nextId, .cmd "uci"]⟩
    match readUntilUciok stream with
    | none => none
    | some rest => some (.ok (s1, rest))

/-- `wait`: join the subprocess (reaping its exit status) and clear the handle;
`RuntimeError` when there is none. -/
def sfWait (s : Session) : Except SfError Session :=
  match s.stockfish with
  | none => .error .runtimeError
  | some g => .ok ⟨none, s.nextId, s.log ++ [.reaped g]⟩

/-- `newgame`: send `"ucinewgame"`; `RuntimeError` when there is no subprocess. -/
def newgame (s : Session) : Except SfError Session :=
  match s.stockfish with
  | none => .error .runtimeError
  | some _ => send_command s "ucinewgame"

/-- The `while True` loop of `ping`: each iteration first checks
`self.stockfish.poll()` (the next entry of `polls`, `none` when exhausted),
raising `StockfishException` if the process has exited, then reads a line,
returning once it is `"readyok"`. -/
def pingLoop : List String → List (Option Int) → Option (Except SfError (List String))
  | [], polls =>
    match polls.headD none with
    | some rc => some (.error (.stockfishException rc))
    | none => none
  | l :: rest, polls =>
    match polls.headD none with
    | some rc => some (.error (.stockfishException rc))
    | none =>
      if l = "readyok" then some (.ok rest) else pingLoop rest polls.tail

/-- `ping`: send `"isready"` and run the poll/read loop.  The updated session
is returned alongside the outcome (a Python exception does not undo the
commands already sent). -/
def ping (s : Session) (stream : List String) (polls : List (Option Int)) :
    Option (Session × Except SfError (List String)) :=
  match s.stockfish with
  | none => some (s, .error .runtimeError)
  | some _ =>
    match send_command s "isready" with
    | .error e => some (s, .error e)
    | .ok s1 =>
      match pingLoop stream polls with
      | none => none
      | some (.error e) => some (s1, .error e)
      | some (.ok rest) => some (s1, .ok rest)

/-- The read loop of `_get_fen_and_check_status`: scan lines for `"Fen: "` and
`"Checkers:"` prefixes; at the `Checkers:` line return the recorded FEN (a
missing one is the `RuntimeError` raised after the loop) and the in-check flag
`line != "Checkers:"`.  Seeing a second `Fen: ` line is a `RuntimeError`. -/
def dLoop : List String → Option String →
    Option (Except SfError ((String × Bool) × List String))
  | [], _ => none
  | l :: rest, fenAcc =>
    if strStartsWith l "Fen: " then
      match fenAcc with
      | some _ => some (.error .runtimeError)
      | none => dLoop rest (some (String.mk (l.data.drop 5)))
    else if strStartsWith l "Checkers:" then
      match fenAcc with
      | none => some (.error .runtimeError)
      | some f => some (.ok ((f, l ≠ "Checkers:"), rest))
    else
      dLoop rest fenAcc

/-- `_get_fen_and_check_status`: send `"d"` and scan the diagnostic dump. -/
def get_fen_and_check_status (s : Session) (stream : List String) :
    Option (Except SfError ((String × Bool) × Session × List String)) :=
  match s.stockfish with
  | none => some (.error .runtimeError)
  | some _ =>
    match send_command s "d" with
    | .error e => some (.error e)
    | .ok s1 =>
      match dLoop stream none with
      | none => none
      | some (.error e) => some (.error e)
      | some (.ok (r, rest)) => some (.ok (r, s1, rest))

/-- `StockfishStatus`. -/
inductive StockfishStatus where
  | Fault
  | MoverInCheck
  | MoverNotInCheck
deriving DecidableEq, Repr

/-- `set_fen`: send `"ucinewgame"` and the position, then `ping`.  A
`StockfishException` (crash) is caught: the dead process is reaped via `wait`,
a fresh one is started via `open` (reading `restartStream`), and `Fault` is
returned.  Otherwise the diagnostic dump is read back and the echoed FEN must
equal the submitted one (`RuntimeError` on mismatch); the returned status
reflects the in-check flag. -/
def set_fen (s : Session) (fenStr : String) (stream : List String)
    (polls : List (Option Int)) (restartStream : List String) :
    Option (Except SfError (StockfishStatus × Session × List String)) :=
  match newgame s with
  | .error e => some (.error e)
  | .ok s1 =>
    match send_command s1 ("position fen " ++ fenStr) with
    | .error e => some (.error e)
    | .ok s2 =>
      match ping s2 stream polls with
      | none => none
      | some (s3, .error (.stockfishException _)) =>
        (match sfWait s3 with
         | .error e => some (.error e)
         | .ok s4 =>
           match sfOpen s4 restartStream with
           | none => none
           | some (.error e) => some (.error e)
           | some (.ok (s5, rest)) => some (.ok (.Fault, s5, rest)))
      | some (_, .error e) => some (.error e)
      | some (s3, .ok rest1) =>
        match get_fen_and_check_status s3 rest1 with
        | none => none
        | some (.error e) => some (.error e)
        | some (.ok ((readback_fen, in_check), s4, rest2)) =>
          if fenStr ≠ readback_fen then
            some (.error .runtimeError)
          else if in_check then
            some (.ok (.MoverInCheck, s4, rest2))
          else
            some (.ok (.MoverNotInCheck, s4, rest2))

/-- The code following the read loop of `evaluate`: fail with `RuntimeError`
when no info line was retained, find the first `"score"` token
(`info_split.index`, `ValueError` when absent) and return the next two tokens
joined by a blank (`" ".join(info_split[idx+1:idx+3])`). -/
def finishEval (s : Session) (info : Option String) (rest : List String) :
    Option (Except SfError (String × Session × List String)) :=
  match info with
  | none => some (.error .runtimeError)
  | some i =>
    match (pySplit i).findIdx? (fun t => t = "score") with
    | none => some (.error .valueError)
    | some idx =>
      some (.ok (String.intercalate " " (((pySplit i).drop (idx + 1)).take 2), s, rest))

/-- The read loop of `evaluate`: retain the most recent line starting with
`"info"`, stop at the first line starting with `"bestmove"`. -/
def evalLoop (s : Session) : List String → Option String →
    Option (Except SfError (String × Session × List String))
  | [], _ => none
  | l :: rest, info =>
    let info' := if strStartsWith l "info" then some l else info
    if strStartsWith l "bestmove" then
      finishEval s info' rest
    else
      evalLoop s rest info'

/-- `evaluate(self, *, depth=None, movetime=None)`: build and send the `go`
command, then run the read loop. -/
def evaluate (s : Session) (depth movetime : Option Int) (stream : List String) :
    Option (Except SfError (String × Session × List String)) :=
  match s.stockfish with
  | none => some (.error .runtimeError)
  | some _ =>
    let arguments :=
      (match depth with
       | none => []
       | some d => ["depth", toString d]) ++
      (match movetime with
       | none => []
       | some m => ["movetime", toString m])
    match send_command s ("go " ++ String.intercalate " " arguments) with
    | .error e => some (.error e)
    | .ok s1 => evalLoop s1 stream none

/-! ### Specification-side definitions for evaluate -/

/-- The authoritative info line of an output script: the last line starting
with `"info"` strictly before the first line starting with `"bestmove"`. -/
def authoritativeInfo (stream : List String) : Option String :=
  ((stream.takeWhile (fun l => !(strStartsWith l "bestmove"))).filter
    (fun l => strStartsWith l "info")).getLast?

/-- Whether the script contains a terminal `bestmove` line at all (without
one, the read loop of `evaluate` blocks forever). -/
def hasBestmove (stream : List String) : Bool :=
  stream.any (fun l => strStartsWith l "bestmove")

/-- The lines remaining after the first `bestmove` line. -/
def restAfterBestmove : List String → List String
  | [] => []
  | l :: rest => if strStartsWith l "bestmove" then rest else restAfterBestmove rest

/-- Modelled from the spec: `EvaluationResult` is "a discriminated value:
either a centipawn score (signed integer) or a mate-in-N score (signed
integer)".  The Python source has no such type; this definition exists to
compare the spec's description with what `evaluate` actually returns. -/
inductive EvaluationResult where
  | centipawn (score : Int)
  | mateIn (moves : Int)
deriving DecidableEq, Repr

/-- Parse a decimal numeral. -/
def parseDigits : List Char → Option Nat
  | [] => none
  | l =>
    l.foldl
      (fun acc c =>
        match acc with
        | none => none
        | some n => if '0' ≤ c ∧ c ≤ '9' then some (10 * n + (c.toNat - 48)) else none)
      (some 0)

/-- Parse a signed decimal integer token. -/
def parseIntToken (s : String) : Option Int :=
  match s.data with
  | '-' :: rest => (parseDigits rest).map (fun n => -(n : Int))
  | l => (parseDigits l).map (fun n => (n : Int))

/-- Modelled from the spec: reading the score token pair as the discriminated
`EvaluationResult` value — the first token selects centipawn/mate, the second
must be a signed integer. -/
def parseEvaluationResult (s : String) : Option EvaluationResult :=
  match pySplit s with
  | [kind, value] =>
    match parseIntToken value with
    | none => none
    | some n =>
      if kind = "cp" then some (.centipawn n)
      else if kind = "mate" then some (.mateIn n)
      else none
  | _ => none

/-! ### Helper lemmas: the fen rank loop is run-length encoding -/

theorem validCell_not_fenDigit (c : Char) (h : validCell c) :
    "1234567".data.contains c = false := by
  rcases h with h | h
  · subst h; decide
  · fin_cases h <;> decide

theorem contains_digitChar (k : Nat) (h1 : 1 ≤ k) (h2 : k ≤ 7) :
    "1234567".data.contains (digitChar k) = true := by
  interval_cases k <;> decide

theorem succ_digitChar (k : Nat) (h1 : 1 ≤ k) (h2 : k ≤ 7) :
    Char.ofNat ((digitChar k).toNat + 1) = digitChar (k + 1) := by
  interval_cases k <;> decide

theorem fenStep_space_digit (acc : List Char) (k : Nat) (h1 : 1 ≤ k) (h2 : k ≤ 7) :
    fenStep (acc ++ [digitChar k]) ' ' = acc ++ [digitChar (k + 1)] := by
  interval_cases k <;>
    · simp [fenStep, List.getLast?_append_cons, List.dropLast_concat]
      rw [if_pos (by decide)]
      all_goals congr 1

theorem fenStep_space_fresh (acc : List Char)
    (hacc : ∀ d, acc.getLast? = some d → "1234567".data.contains d = false) :
    fenStep acc ' ' = acc ++ [digitChar 1] := by
  cases h : acc.getLast? with
  | none =>
    simp [fenStep, h]
    congr 1
  | some d =>
    have hd := hacc d h
    simp at hd
    simp [fenStep, h, hd]
    congr 1

theorem fenStep_piece (acc : List Char) (c : Char) (hc : c ≠ ' ') :
    fenStep acc c = acc ++ [c] := by
  unfold fenStep
  rw [if_neg hc]

theorem foldl_fenStep_rleAux (cells : List Char) :
    ∀ acc : List Char, (∀ c ∈ cells, "1234567".data.contains c = false) →
    ((∀ d, acc.getLast? = some d → "1234567".data.contains d = false) →
        cells.length ≤ 8 →
        List.foldl fenStep acc cells = acc ++ rleAux 0 cells) ∧
    (∀ k, 1 ≤ k → k + cells.length ≤ 8 →
        List.foldl fenStep (acc ++ [digitChar k]) cells = acc ++ rleAux k cells) := by
  induction cells with
  | nil =>
    intro acc _
    constructor
    · intro _ _
      simp [rleAux]
    · intro k hk1 _
      match k, hk1 with
      | k + 1, _ => simp [rleAux]
  | cons c rest ih =>
    intro acc hnd
    have hndr : ∀ x ∈ rest, "1234567".data.contains x = false :=
      fun x hx => hnd x (List.mem_cons_of_mem _ hx)
    constructor
    · intro hacc hlen
      by_cases hc : c = ' '
      · subst hc
        rw [List.foldl_cons, fenStep_space_fresh acc hacc]
        have h2 := (ih acc hndr).2 1 le_rfl (by simp at hlen ⊢; omega)
        rw [h2]
        rfl
      · rw [List.foldl_cons, fenStep_piece acc c hc]
        have h2 := (ih (acc ++ [c]) hndr).1
          (by intro d hd
              rw [List.getLast?_append_cons] at hd
              simp at hd
              rw [← hd]
              exact hnd c (List.mem_cons_self c rest))
          (by simp at hlen ⊢; omega)
        rw [h2]
        have hr : rleAux 0 (c :: rest) = c :: rleAux 0 rest := by
          simp [rleAux, hc]
        rw [hr]
        simp
    · intro k hk1 hlen
      have hk7 : k ≤ 7 := by simp at hlen; omega
      by_cases hc : c = ' '
      · subst hc
        rw [List.foldl_cons, fenStep_space_digit acc k hk1 hk7]
        have h2 := (ih acc hndr).2 (k + 1) (by omega) (by simp at hlen ⊢; omega)
        rw [h2]
        have hr : rleAux k (' ' :: rest) = rleAux (k + 1) rest := by
          match k with
          | 0 => simp [rleAux]
          | k + 1 => simp [rleAux]
        rw [hr]
      · rw [List.foldl_cons, fenStep_piece _ c hc]
        have hassoc : (acc ++ [digitChar k]) ++ [c] = acc ++ [digitChar k, c] := by simp
        rw [hassoc]
        have h2 := (ih (acc ++ [digitChar k, c]) hndr).1
          (by intro d hd
              have he : acc ++ [digitChar k, c] = (acc ++ [digitChar k]) ++ [c] := by simp
              rw [he, List.getLast?_append_cons] at hd
              simp at hd
              rw [← hd]
              exact hnd c (List.mem_cons_self c rest))
          (by simp at hlen ⊢; omega)
        rw [h2]
        have hr : rleAux k (c :: rest) = digitChar k :: c :: rleAux 0 rest := by
          match k, hk1 with
          | k + 1, _ => simp [rleAux, hc]
        rw [hr]
        simp

theorem validBoard_getD (b : Board) (hb : validBoard b) (i : Nat) :
    validCell (b.getD i ' ') := by
  rcases h : b[i]? with _ | c
  · rw [List.getD_eq_getElem?_getD, h]
    exact Or.inl rfl
  · rw [List.getD_eq_getElem?_getD, h]
    exact hb c (List.getElem?_mem h)

theorem rankCells_length (b : Board) (y : Nat) : (rankCells b y).length = 8 := by
  simp [rankCells]

theorem rankCells_valid (b : Board) (hb : validBoard b) (y : Nat) :
    ∀ c ∈ rankCells b y, validCell c := by
  intro c hc
  simp only [rankCells, List.mem_map] at hc
  obtain ⟨x, _, hx⟩ := hc
  rw [← hx]
  exact validBoard_getD b hb _

theorem fenRank_eq_rlEncode (b : Board) (hb : validBoard b) (y : Nat) :
    fenRank b y = rlEncode (rankCells b y) := by
  have hnd : ∀ c ∈ rankCells b y, "1234567".data.contains c = false :=
    fun c hc => validCell_not_fenDigit c (rankCells_valid b hb y c hc)
  have h := (foldl_fenStep_rleAux (rankCells b y) [] hnd).1
    (by simp) (by rw [rankCells_length])
  simpa [fenRank, rlEncode] using h

theorem fen_eq_rle (b : Board) (mover : String) (hb : validBoard b)
    (hm : mover = "w" ∨ mover = "b") :
    fen b mover = some (String.mk
      (List.intercalate ['/'] ((List.range 8).map (fun y => rlEncode (rankCells b y))) ++
        ' ' :: mover.data ++ [' ', '-', ' ', '-', ' ', '0', ' ', '1'])) := by
  have hmm : ¬ (mover ≠ "w" ∧ mover ≠ "b") := by
    rcases hm with h | h <;> simp [h]
  unfold fen
  rw [if_neg hmm]
  have hmap : (List.range 8).map (fenRank b)
      = (List.range 8).map (fun y => rlEncode (rankCells b y)) :=
    List.map_congr_left (fun y _ => fenRank_eq_rlEncode b hb y)
  rw [hmap]

/-- C5: for every board (over the data model's cells) and every mover in
`{w, b}`, `fen` encodes each of the 8 ranks top to bottom by run-length
compressing every maximal run of consecutive empty cells within a rank into a
single decimal digit (`rlEncode`), never merging piece letters, joins the
ranks with `'/'`, and appends the mover letter and the fixed placeholder
fields, yielding `<rank8>/<rank7>/.../<rank1> <w|b> - - 0 1`. -/
theorem fen_format_spec (b : Board) (mover : String) (hb : validBoard b)
    (hm : mover = "w" ∨ mover = "b") :
    fen b mover = some (String.mk
      (List.intercalate ['/'] ((List.range 8).map (fun y => rlEncode (rankCells b y))) ++
        ' ' :: mover.data ++ [' ', '-', ' ', '-', ' ', '0', ' ', '1'])) :=
  fen_eq_rle b mover hb hm

theorem fen_format_spec_witness :
    validBoard mk_initial ∧
    fen mk_initial "w" = some (String.mk
      (List.intercalate ['/'] ((List.range 8).map (fun y => rlEncode (rankCells mk_initial y))) ++
        ' ' :: "w".data ++ [' ', '-', ' ', '-', ' ', '0', ' ', '1'])) :=
  ⟨by decide, fen_format_spec mk_initial "w" (by decide) (Or.inl rfl)⟩

/-- C8: `fen` fails (raises `ValueError`, modelled as `none`) exactly on the
arguments other than the two recognized side-to-move values `"w"` and `"b"`;
in particular it does not fail on that check for `"w"` or `"b"`. -/
theorem fen_mover_check (b : Board) (mover : String) :
    fen b mover = none ↔ (mover ≠ "w" ∧ mover ≠ "b") := by
  unfold fen
  by_cases h : mover ≠ "w" ∧ mover ≠ "b"
  · simp [h]
  · simp [h]

/-! ### Helper lemmas: the placement loop -/

theorem getD_set_ne (l : List Char) (pos i : Nat) (a d : Char) (h : i ≠ pos) :
    (l.set pos a).getD i d = l.getD i d := by
  rw [List.getD_eq_getElem?_getD, List.getD_eq_getElem?_getD,
    List.getElem?_set_ne (Ne.symm h)]

theorem getD_set_self (l : List Char) (pos : Nat) (a d : Char) (h : pos < l.length) :
    (l.set pos a).getD pos d = a := by
  rw [List.getD_eq_getElem?_getD, List.getElem?_set_self h, Option.getD_some]

theorem countP_set_incr (l : List Char) (pos : Nat) (a : Char) (p : Char → Bool)
    (hlen : pos < l.length) (hold : p (l.getD pos ' ') = false) (hnew : p a = true) :
    (l.set pos a).countP p = l.countP p + 1 := by
  rw [List.getD_eq_getElem l ' ' hlen] at hold
  have h1 : l.set pos a = l.take pos ++ a :: l.drop (pos + 1) :=
    List.set_eq_take_cons_drop a hlen
  have h2 : l.countP p = (l.take pos).countP p + (l.drop (pos + 1)).countP p := by
    conv_lhs =>
      rw [← List.take_append_drop pos l, List.drop_eq_getElem_cons hlen]
    simp only [List.countP_append, List.countP_cons, hold, Bool.false_eq_true, if_false]
    omega
  rw [h1, h2]
  simp only [List.countP_append, List.countP_cons, hnew, if_true]
  omega

theorem cands_subset (empties : List Nat) (piece : Char) :
    ∀ i ∈ candidate_positions empties piece, i ∈ empties := by
  intro i hi
  unfold candidate_positions at hi
  split at hi
  · exact List.mem_of_mem_filter hi
  · exact hi

theorem chosen_mem (cands : List Nat) (n : Nat) (h : ¬ cands.length = 0) :
    cands.getD (n % cands.length) 0 ∈ cands := by
  have hlt : n % cands.length < cands.length := Nat.mod_lt _ (Nat.pos_of_ne_zero h)
  rw [List.getD_eq_getElem _ _ hlt]
  exact List.getElem_mem hlt

theorem placeLoop_frame (pieces : List Char) :
    ∀ (b : Board) (empties picks : List Nat) (b' : Board),
      placeLoop b empties pieces picks = .ok b' →
      ∀ i, i ∉ empties → b'.getD i ' ' = b.getD i ' ' := by
  induction pieces with
  | nil =>
    intro b empties picks b' h i _
    simp only [placeLoop] at h
    cases h
    rfl
  | cons piece rest ih =>
    intro b empties picks b' h i hi
    simp only [placeLoop] at h
    by_cases hc : (candidate_positions empties piece).length = 0
    · rw [if_pos hc] at h
      exact Except.noConfusion h
    · rw [if_neg hc] at h
      set pos := (candidate_positions empties piece).getD
        (picks.headD 0 % (candidate_positions empties piece).length) 0 with hposdef
      have hmem : pos ∈ empties :=
        cands_subset empties piece _ (chosen_mem _ _ hc)
      have hne : i ≠ pos := fun he => hi (he ▸ hmem)
      have hrec := ih _ _ picks.tail b' h i
        (fun hmem' => hi (List.mem_of_mem_erase hmem'))
      rw [hrec, getD_set_ne _ _ _ _ _ hne]

theorem placeLoop_length (pieces : List Char) :
    ∀ (b : Board) (empties picks : List Nat) (b' : Board),
      placeLoop b empties pieces picks = .ok b' → b'.length = b.length := by
  induction pieces with
  | nil =>
    intro b empties picks b' h
    simp only [placeLoop] at h
    cases h
    rfl
  | cons piece rest ih =>
    intro b empties picks b' h
    simp only [placeLoop] at h
    by_cases hc : (candidate_positions empties piece).length = 0
    · rw [if_pos hc] at h
      exact Except.noConfusion h
    · rw [if_neg hc] at h
      have hrec := ih _ _ picks.tail b' h
      rw [hrec, List.length_set]

theorem placeLoop_countP (pieces : List Char) :
    ∀ (b : Board) (empties picks : List Nat) (b' : Board),
      empties.Nodup →
      (∀ i ∈ empties, i < b.length ∧ b.getD i ' ' = ' ') →
      (∀ c ∈ pieces, c ≠ ' ') →
      placeLoop b empties pieces picks = .ok b' →
      b'.countP (fun c => decide (c ≠ ' '))
        = b.countP (fun c => decide (c ≠ ' ')) + pieces.length := by
  induction pieces with
  | nil =>
    intro b empties picks b' _ _ _ h
    simp only [placeLoop] at h
    cases h
    rfl
  | cons piece rest ih =>
    intro b empties picks b' hnd hinv hpieces h
    simp only [placeLoop] at h
    by_cases hc : (candidate_positions empties piece).length = 0
    · rw [if_pos hc] at h
      exact Except.noConfusion h
    · rw [if_neg hc] at h
      set pos := (candidate_positions empties piece).getD
        (picks.headD 0 % (candidate_positions empties piece).length) 0 with hposdef
      have hmem : pos ∈ empties :=
        cands_subset empties piece _ (chosen_mem _ _ hc)
      obtain ⟨hlt, hsp⟩ := hinv _ hmem
      have hstep : (b.set pos piece).countP (fun c => decide (c ≠ ' '))
          = b.countP (fun c => decide (c ≠ ' ')) + 1 := by
        apply countP_set_incr _ _ _ _ hlt
        · simp only [ne_eq, decide_eq_false_iff_not, not_not]
          exact hsp
        · simpa using hpieces piece (List.mem_cons_self piece rest)
      have hrec := ih _ _ picks.tail b' (List.Nodup.erase _ hnd)
        (by intro i hie
            have hie' := (List.Nodup.mem_erase_iff hnd).1 hie
            obtain ⟨hlt', hsp'⟩ := hinv i hie'.2
            refine ⟨by rw [List.length_set]; exact hlt', ?_⟩
            rw [getD_set_ne _ _ _ _ _ hie'.1]
            exact hsp')
        (fun c hcm => hpieces c (List.mem_cons_of_mem _ hcm)) h
      rw [hrec, hstep]
      simp [List.length_cons]
      omega

theorem placeLoop_pawn_zone (pieces : List Char) :
    ∀ (b : Board) (empties picks : List Nat) (b' : Board),
      (∀ i, (b.getD i ' ' = 'p' ∨ b.getD i ' ' = 'P') → 8 ≤ i ∧ i < 56) →
      placeLoop b empties pieces picks = .ok b' →
      ∀ i, (b'.getD i ' ' = 'p' ∨ b'.getD i ' ' = 'P') → 8 ≤ i ∧ i < 56 := by
  induction pieces with
  | nil =>
    intro b empties picks b' hinv h
    simp only [placeLoop] at h
    cases h
    exact hinv
  | cons piece rest ih =>
    intro b empties picks b' hinv h
    simp only [placeLoop] at h
    by_cases hc : (candidate_positions empties piece).length = 0
    · rw [if_pos hc] at h
      exact Except.noConfusion h
    · rw [if_neg hc] at h
      set pos := (candidate_positions empties piece).getD
        (picks.headD 0 % (candidate_positions empties piece).length) 0 with hposdef
      apply ih _ _ picks.tail b' _ h
      intro i hp
      by_cases hi : i = pos
      · subst hi
        by_cases hlt : pos < b.length
        · rw [getD_set_self _ _ _ _ hlt] at hp
          by_cases hpawn : piece = 'p' ∨ piece = 'P'
          · have hmemc : pos ∈ candidate_positions empties piece :=
              chosen_mem _ _ hc
            unfold candidate_positions at hmemc
            rw [if_pos hpawn] at hmemc
            have hzone := (List.mem_filter.1 hmemc).2
            simpa using hzone
          · exact absurd hp hpawn
        · rw [List.set_eq_of_length_le (Nat.le_of_not_lt hlt)] at hp
          exact hinv _ hp
      · rw [getD_set_ne _ _ _ _ _ hi] at hp
        exact hinv i hp

theorem placeLoop_valid (pieces : List Char) :
    ∀ (b : Board) (empties picks : List Nat) (b' : Board),
      (∀ c ∈ pieces, c ∈ pieceChars) → validBoard b →
      placeLoop b empties pieces picks = .ok b' → validBoard b' := by
  induction pieces with
  | nil =>
    intro b empties picks b' _ hv h
    simp only [placeLoop] at h
    cases h
    exact hv
  | cons piece rest ih =>
    intro b empties picks b' hp hv h
    simp only [placeLoop] at h
    by_cases hc : (candidate_positions empties piece).length = 0
    · rw [if_pos hc] at h
      exact Except.noConfusion h
    · rw [if_neg hc] at h
      apply ih _ _ picks.tail b'
        (fun c hcm => hp c (List.mem_cons_of_mem _ hcm)) _ h
      intro c hcm
      rcases List.mem_or_eq_of_mem_set hcm with hcm2 | hceq
      · exact hv c hcm2
      · subst hceq
        exact Or.inr (hp c (List.mem_cons_self _ _))


theorem empty_positions_nodup (b : Board) : (empty_positions b).Nodup :=
  List.Nodup.filter _ (List.nodup_range 64)

theorem mem_empty_positions (b : Board) (i : Nat) :
    i ∈ empty_positions b ↔ i < 64 ∧ b.getD i ' ' = ' ' := by
  unfold empty_positions
  simp [List.mem_filter, List.mem_range]

/-- C9: for every board state and every piece string for which
`place_random_pieces` succeeds, every cell that held a piece before the call
holds the same piece after the call: placements write only to cells that were
in the empty set computed at entry, and each chosen cell is removed from that
set before the next symbol is placed. -/
theorem scatter_frame (b : Board) (pieces : String) (picks : List Nat) (b' : Board)
    (h : place_random_pieces b pieces picks = .ok b') :
    ∀ i, b.getD i ' ' ≠ ' ' → b'.getD i ' ' = b.getD i ' ' := by
  intro i hi
  apply placeLoop_frame pieces.toList b (empty_positions b) picks b' h
  intro hmem
  exact hi ((mem_empty_positions b i).1 hmem).2

theorem scatter_frame_witness :
    place_random_pieces (mk_empty.set 0 'K') "q" [0]
        = .ok ((mk_empty.set 0 'K').set 1 'q') ∧
    (mk_empty.set 0 'K').getD 0 ' ' ≠ ' ' ∧
    ((mk_empty.set 0 'K').set 1 'q').getD 0 ' ' = (mk_empty.set 0 'K').getD 0 ' ' :=
  ⟨rfl, by decide,
   scatter_frame (mk_empty.set 0 'K') "q" [0] ((mk_empty.set 0 'K').set 1 'q')
     rfl 0 (by decide)⟩

/-- C6: whenever the candidate cell set (empty cells, restricted to indices in
`[8, 56)` for pawn symbols) is empty while a symbol still needs placement, the
placement loop fails with the invalid-configuration error (the `IndexError`
from `random.choice`); and a successful `place_random_pieces` run has placed
every requested symbol (the occupied-cell count grows by exactly the number of
symbols), so no unplaceable symbol is ever silently ignored. -/
theorem scatter_empty_candidates_error :
    (∀ (b : Board) (empties picks : List Nat) (piece : Char) (rest : List Char),
        candidate_positions empties piece = [] →
        placeLoop b empties (piece :: rest) picks = .error .emptyChoice) ∧
    (∀ (b : Board) (pieces : String) (picks : List Nat) (b' : Board),
        b.length = 64 →
        (∀ c ∈ pieces.toList, c ≠ ' ') →
        place_random_pieces b pieces picks = .ok b' →
        b'.countP (fun c => decide (c ≠ ' '))
          = b.countP (fun c => decide (c ≠ ' ')) + pieces.toList.length) := by
  constructor
  · intro b empties picks piece rest hcand
    simp [placeLoop, hcand]
  · intro b pieces picks b' hlen hp h
    apply placeLoop_countP pieces.toList b (empty_positions b) picks b'
      (empty_positions_nodup b) _ hp h
    intro i hi
    have hmem := (mem_empty_positions b i).1 hi
    exact ⟨by omega, hmem.2⟩

theorem scatter_empty_candidates_error_witness :
    placeLoop mk_empty [] ['p'] [] = .error .emptyChoice ∧
    (mk_empty.set 0 'K').countP (fun c => decide (c ≠ ' '))
      = mk_empty.countP (fun c => decide (c ≠ ' ')) + ("K".toList).length :=
  ⟨scatter_empty_candidates_error.1 mk_empty [] [] 'p' [] rfl,
   scatter_empty_candidates_error.2 mk_empty "K" [0] (mk_empty.set 0 'K')
     (by decide) (by decide) rfl⟩

/-! ### Helper lemmas: characters and counts of the encoded ranks -/

theorem digitChar_not_piece (j : Nat) (h1 : 1 ≤ j) (h2 : j ≤ 8) :
    decide (digitChar j ∈ pieceChars) = false := by
  interval_cases j <;> decide

theorem digitChar_facts (j : Nat) (h1 : 1 ≤ j) (h2 : j ≤ 8) :
    digitChar j ≠ ' ' ∧ digitChar j ≠ '/' ∧ digitChar j ≠ 'p' ∧ digitChar j ≠ 'P' := by
  interval_cases j <;> decide

theorem rleAux_unfold_space (k : Nat) (rest : List Char) :
    rleAux k (' ' :: rest) = rleAux (k + 1) rest := by
  cases k <;> simp [rleAux]

theorem rleAux_unfold_piece_zero (c : Char) (rest : List Char) (hc : c ≠ ' ') :
    rleAux 0 (c :: rest) = c :: rleAux 0 rest := by
  simp [rleAux, hc]

theorem rleAux_unfold_piece_succ (k : Nat) (c : Char) (rest : List Char) (hc : c ≠ ' ') :
    rleAux (k + 1) (c :: rest) = digitChar (k + 1) :: c :: rleAux 0 rest := by
  simp [rleAux, hc]

theorem rleAux_chars (cells : List Char) :
    ∀ k x, k + cells.length ≤ 8 → x ∈ rleAux k cells →
      (x ∈ cells ∧ x ≠ ' ') ∨ ∃ j, 1 ≤ j ∧ j ≤ 8 ∧ x = digitChar j := by
  induction cells with
  | nil =>
    intro k x hk hx
    match k with
    | 0 => simp [rleAux] at hx
    | k + 1 =>
      simp [rleAux] at hx
      exact Or.inr ⟨k + 1, by omega, by simpa using hk, hx⟩
  | cons c rest ih =>
    intro k x hk hx
    by_cases hc : c = ' '
    · subst hc
      rw [rleAux_unfold_space] at hx
      rcases ih (k + 1) x (by simp at hk ⊢; omega) hx with ⟨hm, hne⟩ | hd
      · exact Or.inl ⟨List.mem_cons_of_mem _ hm, hne⟩
      · exact Or.inr hd
    · match k with
      | 0 =>
        rw [rleAux_unfold_piece_zero c rest hc] at hx
        rcases List.mem_cons.1 hx with rfl | hx2
        · exact Or.inl ⟨List.mem_cons_self _ _, hc⟩
        · rcases ih 0 x (by simp at hk ⊢; omega) hx2 with ⟨hm, hne⟩ | hd
          · exact Or.inl ⟨List.mem_cons_of_mem _ hm, hne⟩
          · exact Or.inr hd
      | k' + 1 =>
        rw [rleAux_unfold_piece_succ k' c rest hc] at hx
        rcases List.mem_cons.1 hx with rfl | hx2
        · exact Or.inr ⟨k' + 1, by omega, by simp at hk; omega, rfl⟩
        · rcases List.mem_cons.1 hx2 with rfl | hx3
          · exact Or.inl ⟨List.mem_cons_self _ _, hc⟩
          · rcases ih 0 x (by simp at hk ⊢; omega) hx3 with ⟨hm, hne⟩ | hd
            · exact Or.inl ⟨List.mem_cons_of_mem _ hm, hne⟩
            · exact Or.inr hd

theorem rleAux_countP (cells : List Char) :
    ∀ k, (∀ c ∈ cells, validCell c) → k + cells.length ≤ 8 →
      (rleAux k cells).countP (fun c => decide (c ∈ pieceChars))
        = cells.countP (fun c => decide (c ≠ ' ')) := by
  induction cells with
  | nil =>
    intro k _ hk
    match k with
    | 0 => simp [rleAux]
    | k + 1 =>
      have hd : decide (digitChar (k + 1) ∈ pieceChars) = false :=
        digitChar_not_piece (k + 1) (by omega) (by simpa using hk)
      simp [rleAux, List.countP_cons, hd]
  | cons c rest ih =>
    intro k hv hk
    have hvr : ∀ x ∈ rest, validCell x := fun x hx => hv x (List.mem_cons_of_mem _ hx)
    by_cases hc : c = ' '
    · subst hc
      rw [rleAux_unfold_space]
      rw [ih (k + 1) hvr (by simp at hk ⊢; omega)]
      simp [List.countP_cons]
    · have hcp : c ∈ pieceChars := by
        rcases hv c (List.mem_cons_self _ _) with h | h
        · exact absurd h hc
        · exact h
      match k with
      | 0 =>
        rw [rleAux_unfold_piece_zero c rest hc]
        simp only [List.countP_cons, ih 0 hvr (by simp at hk ⊢; omega)]
        simp [hcp, hc]
      | k' + 1 =>
        have hd : decide (digitChar (k' + 1) ∈ pieceChars) = false :=
          digitChar_not_piece (k' + 1) (by omega) (by simp at hk; omega)
        rw [rleAux_unfold_piece_succ k' c rest hc]
        simp only [List.countP_cons, ih 0 hvr (by simp at hk ⊢; omega)]
        simp [hcp, hc, hd]

theorem takeWhile_prefix_blank (pfx sfx : List Char) (h : ∀ x ∈ pfx, x ≠ ' ') :
    (pfx ++ ' ' :: sfx).takeWhile (fun c => decide (c ≠ ' ')) = pfx := by
  induction pfx with
  | nil => simp [List.takeWhile_cons]
  | cons a t ih =>
    have ha := h a (List.mem_cons_self _ _)
    have ih2 := ih (fun x hx => h x (List.mem_cons_of_mem _ hx))
    simp only [List.cons_append, List.takeWhile_cons]
    rw [if_pos (decide_eq_true ha), ih2]

theorem sum_intersperse_zero (l : List Nat) : (l.intersperse 0).sum = l.sum := by
  induction l with
  | nil => rfl
  | cons a t ih =>
    cases t with
    | nil => rfl
    | cons b q =>
      rw [List.intersperse_cons_cons]
      simp only [List.sum_cons] at ih ⊢
      omega

theorem map_countP_intersperse (p : Char → Bool) (sep : List Char)
    (parts : List (List Char)) :
    (parts.intersperse sep).map (fun l => l.countP p)
      = (parts.map (fun l => l.countP p)).intersperse (sep.countP p) := by
  induction parts with
  | nil => rfl
  | cons a t ih =>
    cases t with
    | nil => rfl
    | cons b q =>
      simp only [List.intersperse_cons_cons, List.map_cons] at ih ⊢
      rw [ih]

theorem countP_intercalate (p : Char → Bool) (hsep : p '/' = false)
    (parts : List (List Char)) :
    (List.intercalate ['/'] parts).countP p
      = (parts.map (fun l => l.countP p)).sum := by
  rw [List.intercalate, List.countP_flatten, map_countP_intersperse]
  have h0 : (['/'] : List Char).countP p = 0 := by
    simp [List.countP_cons, hsep]
  rw [h0, sum_intersperse_zero]

theorem map_getD_eight (m : List Char) (hm : m.length = 8) :
    (List.range 8).map (fun x => m.getD x ' ') = m := by
  match m, hm with
  | [a, b, c, d, e, f, g, h], _ => rfl

theorem rankCells_eq_chunk (b : Board) (hb : b.length = 64) (y : Nat) (hy : y < 8) :
    rankCells b y = (b.drop (y * 8)).take 8 := by
  have hlen : ((b.drop (y * 8)).take 8).length = 8 := by
    simp [List.length_take, List.length_drop, hb]
    omega
  rw [← map_getD_eight ((b.drop (y * 8)).take 8) hlen]
  unfold rankCells
  apply List.map_congr_left
  intro x hx
  have hx8 : x < 8 := List.mem_range.1 hx
  rw [List.getD_eq_getElem?_getD, List.getD_eq_getElem?_getD]
  rw [List.getElem?_take_of_lt hx8, List.getElem?_drop]

theorem countP_board_chunks (b : Board) (hb : b.length = 64) (p : Char → Bool) :
    ((List.range 8).map (fun y => (rankCells b y).countP p)).sum = b.countP p := by
  have h0 : (List.range 8) = [0, 1, 2, 3, 4, 5, 6, 7] := rfl
  rw [h0]
  simp only [List.map_cons, List.map_nil, List.sum_cons, List.sum_nil]
  rw [rankCells_eq_chunk b hb 0 (by omega), rankCells_eq_chunk b hb 1 (by omega),
    rankCells_eq_chunk b hb 2 (by omega), rankCells_eq_chunk b hb 3 (by omega),
    rankCells_eq_chunk b hb 4 (by omega), rankCells_eq_chunk b hb 5 (by omega),
    rankCells_eq_chunk b hb 6 (by omega), rankCells_eq_chunk b hb 7 (by omega)]
  have hsplit : ∀ n, (b.drop n).countP p
      = ((b.drop n).take 8).countP p + (b.drop (n + 8)).countP p := by
    intro n
    conv_lhs => rw [← List.take_append_drop 8 (b.drop n)]
    rw [List.countP_append, List.drop_drop]
  have e0 := hsplit 0
  have e1 := hsplit 8
  have e2 := hsplit 16
  have e3 := hsplit 24
  have e4 := hsplit 32
  have e5 := hsplit 40
  have e6 := hsplit 48
  have e7 := hsplit 56
  have hdrop : b.drop 64 = [] := List.drop_eq_nil_of_le (by omega)
  rw [hdrop] at e7
  norm_num at e0 e1 e2 e3 e4 e5 e6 e7 ⊢
  rw [show b.countP p = (b.drop 0).countP p from by rw [List.drop_zero]]
  norm_num at e0 ⊢
  omega

theorem data_of_mk (l : List Char) : (String.mk l).data = l := rfl

theorem pieceChars_facts (c : Char) (h : c ∈ pieceChars) : c ≠ ' ' ∧ c ≠ '/' := by
  fin_cases h <;> decide

theorem mk_empty_getD (i : Nat) : mk_empty.getD i ' ' = ' ' := by
  rw [show mk_empty = List.replicate 64 ' ' from rfl, List.getD_eq_getElem?_getD,
    List.getElem?_replicate]
  split <;> rfl

theorem mem_of_mem_intersperse (sep : List Char) (parts : List (List Char))
    (m : List Char) (hm : m ∈ parts.intersperse sep) : m ∈ parts ∨ m = sep := by
  induction parts with
  | nil => simp at hm
  | cons a t ih =>
    cases t with
    | nil =>
      simp at hm
      simp [hm]
    | cons b q =>
      rw [List.intersperse_cons_cons] at hm
      rcases List.mem_cons.1 hm with rfl | hm2
      · exact Or.inl (List.mem_cons_self _ _)
      · rcases List.mem_cons.1 hm2 with rfl | hm3
        · exact Or.inr rfl
        · rcases ih hm3 with h | h
          · exact Or.inl (List.mem_cons_of_mem _ h)
          · exact Or.inr h

theorem rlEncode_chars_valid (cells : List Char) (hv : ∀ c ∈ cells, validCell c)
    (hlen : cells.length ≤ 8) :
    ∀ x ∈ rlEncode cells, x ≠ ' ' ∧ x ≠ '/' := by
  intro x hx
  rcases rleAux_chars cells 0 x (by omega) hx with ⟨hm, hne⟩ | ⟨j, hj1, hj8, rfl⟩
  · have hcp : x ∈ pieceChars := by
      rcases hv x hm with h | h
      · exact absurd h hne
      · exact h
    exact pieceChars_facts x hcp
  · have hf := digitChar_facts j hj1 hj8
    exact ⟨hf.1, hf.2.1⟩

/-- C2 (amended): for every piece multiset (drawn from the twelve piece
letters) with pawn count at most 48 and total count at most 64, and every
outcome of the random source ON WHICH `place_random_pieces` from the empty
board SUCCEEDS, the produced position string's board portion contains exactly
as many piece letters as the multiset has symbols, and its first and last
`'/'`-separated rank segments contain no pawn letter.  (The claim as frozen
also asserts that a string is produced for EVERY outcome; the counterexample
shows an in-bounds multiset and an outcome on which the call instead fails.) -/
theorem scatter_fen_piece_count (pieces : String) (picks : List Nat) (b' : Board)
    (mover : String)
    (hpieces : ∀ c ∈ pieces.toList, c ∈ pieceChars)
    (_hpawn : pawnCount pieces ≤ 48)
    (_htot : pieces.toList.length ≤ 64)
    (hok : place_random_pieces mk_empty pieces picks = .ok b')
    (hm : mover = "w" ∨ mover = "b") :
    ∃ str, fen b' mover = some str ∧
      pieceLetterCount str = pieces.toList.length ∧
      (∀ x ∈ (rankSegments str).headD [], x ≠ 'p' ∧ x ≠ 'P') ∧
      (∀ x ∈ (rankSegments str).getLastD [], x ≠ 'p' ∧ x ≠ 'P') := by
  have hlen0 : (mk_empty : Board).length = 64 := by decide
  have hval0 : validBoard mk_empty := by decide
  have hlen' : b'.length = 64 := by
    rw [placeLoop_length pieces.toList mk_empty (empty_positions mk_empty) picks b' hok]
    exact hlen0
  have hvalid : validBoard b' :=
    placeLoop_valid pieces.toList mk_empty (empty_positions mk_empty) picks b'
      hpieces hval0 hok
  have hzone : ∀ i, (b'.getD i ' ' = 'p' ∨ b'.getD i ' ' = 'P') → 8 ≤ i ∧ i < 56 := by
    apply placeLoop_pawn_zone pieces.toList mk_empty (empty_positions mk_empty) picks b' _ hok
    intro i hi
    rw [mk_empty_getD] at hi
    rcases hi with h | h <;> exact absurd h (by decide)
  have hcount : b'.countP (fun c => decide (c ≠ ' ')) = pieces.toList.length := by
    have h := placeLoop_countP pieces.toList mk_empty (empty_positions mk_empty) picks b'
      (empty_positions_nodup _)
      (fun i hi =>
        ⟨by have := (mem_empty_positions _ i).1 hi; omega,
         ((mem_empty_positions _ i).1 hi).2⟩)
      (fun c hc => (pieceChars_facts c (hpieces c hc)).1) hok
    rw [h]
    have h0 : (mk_empty : Board).countP (fun c => decide (c ≠ ' ')) = 0 := by decide
    rw [h0]
    omega
  have hranksvalid : ∀ y, ∀ c ∈ rankCells b' y, validCell c :=
    fun y => rankCells_valid b' hvalid y
  have hrlen : ∀ y, (rankCells b' y).length = 8 := fun y => rankCells_length b' y
  have hBP : ∀ x ∈ List.intercalate ['/']
      ((List.range 8).map (fun y => rlEncode (rankCells b' y))), x ≠ ' ' := by
    intro x hx
    rw [List.intercalate, List.mem_flatten] at hx
    obtain ⟨m, hmm, hxm⟩ := hx
    rcases mem_of_mem_intersperse _ _ _ hmm with hmp | rfl
    · simp only [List.mem_map, List.mem_range] at hmp
      obtain ⟨y, _, rfl⟩ := hmp
      exact (rlEncode_chars_valid _ (hranksvalid y) (by rw [hrlen]) x hxm).1
    · simp at hxm
      subst hxm
      decide
  have hslash : ∀ l ∈ (List.range 8).map (fun y => rlEncode (rankCells b' y)),
      '/' ∉ l := by
    intro l hl hxl
    simp only [List.mem_map, List.mem_range] at hl
    obtain ⟨y, _, rfl⟩ := hl
    exact (rlEncode_chars_valid _ (hranksvalid y) (by rw [hrlen]) '/' hxl).2 rfl
  have htake : ((List.intercalate ['/']
        ((List.range 8).map (fun y => rlEncode (rankCells b' y)))) ++
      ' ' :: (mover.data ++ [' ', '-', ' ', '-', ' ', '0', ' ', '1'])).takeWhile
        (fun c => decide (c ≠ ' '))
      = List.intercalate ['/'] ((List.range 8).map (fun y => rlEncode (rankCells b' y))) :=
    takeWhile_prefix_blank _ _ hBP
  have hsegs : rankSegments (String.mk
      (List.intercalate ['/'] ((List.range 8).map (fun y => rlEncode (rankCells b' y))) ++
        ' ' :: mover.data ++ [' ', '-', ' ', '-', ' ', '0', ' ', '1']))
      = (List.range 8).map (fun y => rlEncode (rankCells b' y)) := by
    unfold rankSegments
    rw [data_of_mk]
    simp only [List.append_assoc, List.cons_append]
    rw [htake]
    exact List.splitOn_intercalate _ _ hslash (by simp)
  have hform : (List.range 8).map (fun y => rlEncode (rankCells b' y))
      = [rlEncode (rankCells b' 0), rlEncode (rankCells b' 1), rlEncode (rankCells b' 2),
         rlEncode (rankCells b' 3), rlEncode (rankCells b' 4), rlEncode (rankCells b' 5),
         rlEncode (rankCells b' 6), rlEncode (rankCells b' 7)] := rfl
  have hnopawn : ∀ y, y < 8 → (y = 0 ∨ y = 7) →
      ∀ x ∈ rlEncode (rankCells b' y), x ≠ 'p' ∧ x ≠ 'P' := by
    intro y hy hy07 x hx
    rcases rleAux_chars _ 0 x (by rw [hrlen]) hx with ⟨hmx, _⟩ | ⟨j, hj1, hj8, rfl⟩
    · simp only [rankCells, List.mem_map, List.mem_range] at hmx
      obtain ⟨x', hx', rfl⟩ := hmx
      constructor <;> intro hcontra
      · have := hzone (y * 8 + x') (Or.inl hcontra)
        rcases hy07 with rfl | rfl <;> omega
      · have := hzone (y * 8 + x') (Or.inr hcontra)
        rcases hy07 with rfl | rfl <;> omega
    · have hf := digitChar_facts j hj1 hj8
      exact ⟨hf.2.2.1, hf.2.2.2⟩
  refine ⟨_, fen_eq_rle b' mover hvalid hm, ?_, ?_, ?_⟩
  · unfold pieceLetterCount
    rw [data_of_mk]
    simp only [List.append_assoc, List.cons_append]
    rw [htake]
    rw [countP_intercalate _ (by decide)]
    rw [List.map_map]
    have hmapc : (List.range 8).map
          ((fun l => l.countP (fun c => decide (c ∈ pieceChars))) ∘
            (fun y => rlEncode (rankCells b' y)))
        = (List.range 8).map (fun y => (rankCells b' y).countP (fun c => decide (c ≠ ' '))) := by
      apply List.map_congr_left
      intro y _
      exact rleAux_countP (rankCells b' y) 0 (hranksvalid y) (by rw [hrlen])
    rw [hmapc, countP_board_chunks b' hlen' _]
    exact hcount
  · rw [hsegs, hform]
    simp only [List.headD_cons]
    exact hnopawn 0 (by omega) (Or.inl rfl)
  · rw [hsegs, hform]
    have hlast : ([rlEncode (rankCells b' 0), rlEncode (rankCells b' 1),
        rlEncode (rankCells b' 2), rlEncode (rankCells b' 3), rlEncode (rankCells b' 4),
        rlEncode (rankCells b' 5), rlEncode (rankCells b' 6),
        rlEncode (rankCells b' 7)] : List (List Char)).getLastD []
        = rlEncode (rankCells b' 7) := rfl
    rw [hlast]
    exact hnopawn 7 (by omega) (Or.inr rfl)

theorem scatter_fen_piece_count_witness :
    ∃ str, fen ((mk_empty.set 0 'K').set 1 'k') "w" = some str ∧
      pieceLetterCount str = ("Kk".toList).length ∧
      (∀ x ∈ (rankSegments str).headD [], x ≠ 'p' ∧ x ≠ 'P') ∧
      (∀ x ∈ (rankSegments str).getLastD [], x ≠ 'p' ∧ x ≠ 'P') :=
  scatter_fen_piece_count "Kk" [0, 0] ((mk_empty.set 0 'K').set 1 'k') "w"
    (by decide) (by decide) (by decide) rfl (Or.inl rfl)

/-- C2 (counterexample to the claim as frozen): the multiset of 48 knights
and one pawn has pawn count 1 ≤ 48, total count 49 ≤ 64, and only piece
letters, yet the outcome of the random source that drops every knight onto
the pawn ranks leaves no legal cell for the pawn, so `place_random_pieces`
on the empty board fails instead of producing a position string. -/
theorem scatter_bounds_insufficient_cex :
    pawnCount (String.mk (List.replicate 48 'N' ++ ['p'])) ≤ 48 ∧
    (String.mk (List.replicate 48 'N' ++ ['p'])).toList.length ≤ 64 ∧
    (∀ c ∈ (String.mk (List.replicate 48 'N' ++ ['p'])).toList, c ∈ pieceChars) ∧
    place_random_pieces mk_empty (String.mk (List.replicate 48 'N' ++ ['p']))
      (List.replicate 48 8 ++ [0]) = .error .emptyChoice :=
  ⟨by decide, by decide, by decide, rfl⟩

/-! ### Helper lemmas: decoding a position string -/

theorem expandCell_digitChar (j : Nat) (h1 : 1 ≤ j) (h2 : j ≤ 8) :
    expandCell (digitChar j) = some (List.replicate j ' ') := by
  interval_cases j <;> decide

theorem expandCell_piece (c : Char) (hc : c ∈ pieceChars) :
    expandCell c = some [c] := by
  unfold expandCell
  rw [if_pos hc]

theorem expandSeg_rleAux (cells : List Char) :
    ∀ k, (∀ c ∈ cells, validCell c) → k + cells.length ≤ 8 →
      expandSeg (rleAux k cells) = some (List.replicate k ' ' ++ cells) := by
  induction cells with
  | nil =>
    intro k _ hk
    match k with
    | 0 => simp [rleAux, expandSeg]
    | k + 1 =>
      have hd := expandCell_digitChar (k + 1) (by omega) (by simpa using hk)
      simp [rleAux, expandSeg, hd]
  | cons c rest ih =>
    intro k hv hk
    have hvr : ∀ x ∈ rest, validCell x := fun x hx => hv x (List.mem_cons_of_mem _ hx)
    by_cases hc : c = ' '
    · subst hc
      rw [rleAux_unfold_space, ih (k + 1) hvr (by simp at hk ⊢; omega)]
      rw [List.replicate_succ']
      simp
    · have hcp : c ∈ pieceChars := by
        rcases hv c (List.mem_cons_self _ _) with h | h
        · exact absurd h hc
        · exact h
      match k with
      | 0 =>
        rw [rleAux_unfold_piece_zero c rest hc]
        simp only [expandSeg]
        rw [expandCell_piece c hcp, ih 0 hvr (by simp at hk ⊢; omega)]
        simp
      | k' + 1 =>
        have hd := expandCell_digitChar (k' + 1) (by omega) (by simp at hk; omega)
        rw [rleAux_unfold_piece_succ k' c rest hc]
        simp only [expandSeg]
        rw [hd, expandCell_piece c hcp, ih 0 hvr (by simp at hk ⊢; omega)]
        simp [List.replicate_succ']

theorem ranks_no_slash (b : Board) (hb : validBoard b) :
    ∀ l ∈ (List.range 8).map (fun y => rlEncode (rankCells b y)), '/' ∉ l := by
  intro l hl hxl
  simp only [List.mem_map, List.mem_range] at hl
  obtain ⟨y, _, rfl⟩ := hl
  exact (rlEncode_chars_valid _ (rankCells_valid b hb y) (by rw [rankCells_length]) '/' hxl).2 rfl

theorem ranks_bp_no_blank (b : Board) (hb : validBoard b) :
    ∀ x ∈ List.intercalate ['/'] ((List.range 8).map (fun y => rlEncode (rankCells b y))),
      x ≠ ' ' := by
  intro x hx
  rw [List.intercalate, List.mem_flatten] at hx
  obtain ⟨m, hmm, hxm⟩ := hx
  rcases mem_of_mem_intersperse _ _ _ hmm with hmp | rfl
  · simp only [List.mem_map, List.mem_range] at hmp
    obtain ⟨y, _, rfl⟩ := hmp
    exact (rlEncode_chars_valid _ (rankCells_valid b hb y) (by rw [rankCells_length]) x hxm).1
  · simp at hxm
    subst hxm
    decide

theorem chunk_take_append (b : Board) (n : Nat) :
    (b.drop n).take 8 ++ b.drop (n + 8) = b.drop n := by
  conv_rhs => rw [← List.take_append_drop 8 (b.drop n)]
  rw [List.drop_drop]

theorem chunks_flatten (b : Board) (hb : b.length = 64) :
    b.take 8 ++ ((b.drop 8).take 8 ++ ((b.drop 16).take 8 ++ ((b.drop 24).take 8 ++
      ((b.drop 32).take 8 ++ ((b.drop 40).take 8 ++ ((b.drop 48).take 8 ++
        (b.drop 56).take 8)))))) = b := by
  have h7 : (b.drop 56).take 8 = b.drop 56 := by
    apply List.take_of_length_le
    simp [hb]
  rw [h7]
  rw [show b.drop 56 = b.drop (48 + 8) from by norm_num, chunk_take_append b 48]
  rw [show b.drop 48 = b.drop (40 + 8) from by norm_num, chunk_take_append b 40]
  rw [show b.drop 40 = b.drop (32 + 8) from by norm_num, chunk_take_append b 32]
  rw [show b.drop 32 = b.drop (24 + 8) from by norm_num, chunk_take_append b 24]
  rw [show b.drop 24 = b.drop (16 + 8) from by norm_num, chunk_take_append b 16]
  rw [show b.drop 16 = b.drop (8 + 8) from by norm_num, chunk_take_append b 8]
  exact List.take_append_drop 8 b

theorem decodeFen_core (b : Board) (hb : validBoard b) (hlen : b.length = 64)
    (mc : Char) (hmc : mc = 'w' ∨ mc = 'b') :
    decodeFen (String.mk
      (List.intercalate ['/'] ((List.range 8).map (fun y => rlEncode (rankCells b y))) ++
        ' ' :: [mc] ++ [' ', '-', ' ', '-', ' ', '0', ' ', '1']))
      = some (b, String.mk [mc]) := by
  have hmv : ([mc] = ['w'] ∨ [mc] = ['b']) := by
    rcases hmc with rfl | rfl
    · exact Or.inl rfl
    · exact Or.inr rfl
  have hsplit : ((List.intercalate ['/']
        ((List.range 8).map (fun y => rlEncode (rankCells b y))) ++
        ' ' :: [mc] ++ [' ', '-', ' ', '-', ' ', '0', ' ', '1']) : List Char).splitOn ' '
      = [List.intercalate ['/'] ((List.range 8).map (fun y => rlEncode (rankCells b y))),
         [mc], ['-'], ['-'], ['0'], ['1']] := by
    have he : (List.intercalate ['/']
          ((List.range 8).map (fun y => rlEncode (rankCells b y))) ++
          ' ' :: [mc] ++ [' ', '-', ' ', '-', ' ', '0', ' ', '1'])
        = List.intercalate [' ']
            [List.intercalate ['/'] ((List.range 8).map (fun y => rlEncode (rankCells b y))),
             [mc], ['-'], ['-'], ['0'], ['1']] := by
      simp [List.intercalate]
    rw [he]
    apply List.splitOn_intercalate
    · intro l hl
      fin_cases hl
      · intro hx
        exact ranks_bp_no_blank b hb ' ' hx rfl
      · rcases hmc with rfl | rfl <;> decide
      · decide
      · decide
      · decide
      · decide
    · simp
  have hexp : ∀ y, expandSeg (rlEncode (rankCells b y)) = some (rankCells b y) := by
    intro y
    have h := expandSeg_rleAux (rankCells b y) 0 (rankCells_valid b hb y)
      (by rw [rankCells_length])
    simpa [rlEncode] using h
  have hmapM : List.mapM expandSeg
      ((List.range 8).map (fun y => rlEncode (rankCells b y)))
      = some ((List.range 8).map (fun y => rankCells b y)) := by
    show List.mapM expandSeg
        [rlEncode (rankCells b 0), rlEncode (rankCells b 1), rlEncode (rankCells b 2),
         rlEncode (rankCells b 3), rlEncode (rankCells b 4), rlEncode (rankCells b 5),
         rlEncode (rankCells b 6), rlEncode (rankCells b 7)]
      = some [rankCells b 0, rankCells b 1, rankCells b 2, rankCells b 3,
              rankCells b 4, rankCells b 5, rankCells b 6, rankCells b 7]
    rw [List.mapM_cons, hexp 0, List.mapM_cons, hexp 1, List.mapM_cons, hexp 2,
      List.mapM_cons, hexp 3, List.mapM_cons, hexp 4, List.mapM_cons, hexp 5,
      List.mapM_cons, hexp 6, List.mapM_cons, hexp 7, List.mapM_nil]
    rfl
  have hsegs2 : (List.intercalate ['/']
        ((List.range 8).map (fun y => rlEncode (rankCells b y)))).splitOn '/'
      = (List.range 8).map (fun y => rlEncode (rankCells b y)) :=
    List.splitOn_intercalate _ _ (ranks_no_slash b hb) (by simp)
  have hflat : ((List.range 8).map (fun y => rankCells b y)).flatten = b := by
    show ([rankCells b 0, rankCells b 1, rankCells b 2, rankCells b 3, rankCells b 4,
      rankCells b 5, rankCells b 6, rankCells b 7] : List (List Char)).flatten = b
    rw [rankCells_eq_chunk b hlen 0 (by omega), rankCells_eq_chunk b hlen 1 (by omega),
      rankCells_eq_chunk b hlen 2 (by omega), rankCells_eq_chunk b hlen 3 (by omega),
      rankCells_eq_chunk b hlen 4 (by omega), rankCells_eq_chunk b hlen 5 (by omega),
      rankCells_eq_chunk b hlen 6 (by omega), rankCells_eq_chunk b hlen 7 (by omega)]
    norm_num
    exact chunks_flatten b hlen
  unfold decodeFen
  rw [data_of_mk, hsplit]
  dsimp only
  rw [if_pos ⟨hmv, rfl, rfl, rfl, rfl⟩]
  rw [hsegs2]
  rw [if_pos (by simp)]
  rw [hmapM]
  dsimp only
  rw [if_pos (by simp [List.all_eq_true, rankCells_length])]
  rw [hflat]

/-- C10: for every valid 64-cell board and every mover in `{w, b}`, the
string produced by `fen` uniquely determines the board and mover: the
reference decoder `decodeFen` (which expands each of the 8 `'/'`-separated
rank segments back to exactly 8 cells, a piece letter as one occupied cell
and a digit as that many empty cells) recovers the original 64-cell board
and the mover flag. -/
theorem fen_decode_roundtrip (b : Board) (mover : String) (hb : validBoard b)
    (hlen : b.length = 64) (hm : mover = "w" ∨ mover = "b") :
    ∃ str, fen b mover = some str ∧ decodeFen str = some (b, mover) := by
  refine ⟨_, fen_eq_rle b mover hb hm, ?_⟩
  rcases hm with rfl | rfl
  · exact decodeFen_core b hb hlen 'w' (Or.inl rfl)
  · exact decodeFen_core b hb hlen 'b' (Or.inr rfl)

theorem fen_decode_roundtrip_witness :
    validBoard mk_initial ∧ (mk_initial : Board).length = 64 ∧
    (∃ str, fen mk_initial "w" = some str ∧ decodeFen str = some (mk_initial, "w")) :=
  ⟨by decide, by decide,
   fen_decode_roundtrip mk_initial "w" (by decide) (by decide) (Or.inl rfl)⟩

/-! ### Session claims -/

/-- C3: for every position submission during which the external process exits
(detected by the poll inside `ping` after the `isready` synchronization
request), `set_fen` reaps the dead process (`wait`), relaunches a fresh
instance via the same start sequence (`open`: spawn, send `"uci"`, read to
`"uciok"`), and returns the `Fault` status without raising any error to the
caller — the result is `Except.ok` and the event log shows the reap followed
by the fresh spawn. -/
theorem set_fen_crash_recovery (s : Session) (g : Nat) (fenStr : String)
    (stream : List String) (polls : List (Option Int))
    (restartStream rest : List String) (rc : Int)
    (hs : s.stockfish = some g)
    (hcrash : pingLoop stream polls = some (.error (.stockfishException rc)))
    (hopen : readUntilUciok restartStream = some rest) :
    set_fen s fenStr stream polls restartStream
      = some (.ok (.Fault,
          ⟨some s.nextId, s.nextId + 1,
            s.log ++ [.cmd "ucinewgame", .cmd ("position fen " ++ fenStr), .cmd "isready",
              .reaped g, .spawned s.nextId, .cmd "uci"]⟩, rest)) := by
  simp only [set_fen, newgame, send_command, ping, sfWait, sfOpen, hs, hcrash, hopen]
  simp [List.append_assoc]

theorem set_fen_crash_recovery_witness :
    set_fen ⟨some 0, 1, []⟩ "x" [] [some 139] ["uciok"]
      = some (.ok (.Fault,
          ⟨some 1, 2, [.cmd "ucinewgame", .cmd "position fen x", .cmd "isready",
            .reaped 0, .spawned 1, .cmd "uci"]⟩, [])) :=
  set_fen_crash_recovery ⟨some 0, 1, []⟩ 0 "x" [] [some 139] ["uciok"] [] 139 rfl rfl rfl

/-- C4: for every position submission that passes synchronization (`ping`
succeeds) and reads back a diagnostic dump, if the echoed position string
differs from the submitted one then `set_fen` raises the fatal `RuntimeError`
rather than returning a `Fault` status, and it returns `MoverInCheck` or
`MoverNotInCheck` only when the echoed string exactly equals the submitted
string. -/
theorem set_fen_echo_integrity (s : Session) (g : Nat) (fenStr : String)
    (stream : List String) (polls : List (Option Int)) (restartStream : List String)
    (rest1 rest2 : List String) (readback : String) (chk : Bool)
    (hs : s.stockfish = some g)
    (hping : pingLoop stream polls = some (.ok rest1))
    (hd : dLoop rest1 none = some (.ok ((readback, chk), rest2))) :
    (fenStr ≠ readback →
      set_fen s fenStr stream polls restartStream = some (.error .runtimeError)) ∧
    (∀ st s' rest', set_fen s fenStr stream polls restartStream
        = some (.ok (st, s', rest')) →
      (st = .MoverInCheck ∨ st = .MoverNotInCheck) ∧ readback = fenStr) := by
  constructor
  · intro hne
    simp only [set_fen, newgame, send_command, ping, get_fen_and_check_status,
      hs, hping, hd]
    simp [hne]
  · intro st s' rest' h
    simp only [set_fen, newgame, send_command, ping, get_fen_and_check_status,
      hs, hping, hd] at h
    by_cases hne : fenStr ≠ readback
    · simp [hne] at h
    · simp only [hne, if_false] at h
      push_neg at hne
      refine ⟨?_, hne.symm⟩
      by_cases hchk : chk
      · simp [hchk] at h
        exact Or.inl h.1.symm
      · simp [hchk] at h
        exact Or.inr h.1.symm

theorem set_fen_echo_integrity_witness :
    set_fen ⟨some 0, 1, []⟩ "y" ["readyok", "Fen: x", "Checkers:"] [] []
      = some (.error .runtimeError) :=
  (set_fen_echo_integrity ⟨some 0, 1, []⟩ 0 "y" ["readyok", "Fen: x", "Checkers:"] [] []
    ["Fen: x", "Checkers:"] [] "x" false rfl rfl rfl).1 (by decide)

/-! ### Helper lemmas: the evaluate read loop -/

theorem info_not_bestmove (l : String) (h : strStartsWith l "info" = true) :
    strStartsWith l "bestmove" = false := by
  unfold strStartsWith at h ⊢
  rw [show "info".data = ['i', 'n', 'f', 'o'] from rfl] at h
  rw [show "bestmove".data = ['b', 'e', 's', 't', 'm', 'o', 'v', 'e'] from rfl]
  cases hl : l.data with
  | nil => rw [hl] at h; simp [List.isPrefixOf] at h
  | cons c cs =>
    rw [hl] at h
    simp [List.isPrefixOf] at h ⊢
    intro hc
    rw [← hc] at h
    simp at h

theorem getLast?_cons_eq (a : String) (l : List String) :
    (a :: l).getLast? = some (l.getLast?.getD a) := by
  induction l generalizing a with
  | nil => rfl
  | cons b t ih =>
    rw [List.getLast?_cons_cons, ih b]
    simp

theorem evalLoop_spec (s : Session) (stream : List String) :
    ∀ acc : Option String, hasBestmove stream = true →
      evalLoop s stream acc
        = finishEval s ((authoritativeInfo stream).or acc) (restAfterBestmove stream) := by
  induction stream with
  | nil =>
    intro acc h
    simp [hasBestmove] at h
  | cons l rest ih =>
    intro acc hbm
    by_cases hb : strStartsWith l "bestmove"
    · have hinf : strStartsWith l "info" = false := by
        by_cases hi : strStartsWith l "info"
        · have := info_not_bestmove l hi
          rw [this] at hb
          exact absurd hb (by simp)
        · simpa using hi
      simp only [evalLoop, hinf, hb, if_true, Bool.false_eq_true, if_false]
      simp [authoritativeInfo, restAfterBestmove, hb, List.takeWhile_cons, Option.or]
    · have hbmr : hasBestmove rest = true := by
        simp only [hasBestmove, List.any_cons, hb] at hbm ⊢
        simpa using hbm
      have hstep : evalLoop s (l :: rest) acc
          = evalLoop s rest (if strStartsWith l "info" then some l else acc) := by
        simp only [evalLoop, hb, Bool.false_eq_true, if_false]
      rw [hstep, ih _ hbmr]
      have hrest : restAfterBestmove (l :: rest) = restAfterBestmove rest := by
        simp [restAfterBestmove, hb]
      rw [hrest]
      congr 1
      by_cases hi : strStartsWith l "info"
      · rw [if_pos hi]
        simp only [authoritativeInfo, List.takeWhile_cons]
        rw [if_pos (by simpa using hb), List.filter_cons, if_pos hi, getLast?_cons_eq]
        cases hF : (List.filter (fun x => strStartsWith x "info")
            (List.takeWhile (fun x => !strStartsWith x "bestmove") rest)).getLast? <;>
          simp [Option.or, hF]
      · rw [if_neg hi]
        simp only [authoritativeInfo, List.takeWhile_cons]
        rw [if_pos (by simpa using hb), List.filter_cons, if_neg hi]

theorem evalLoop_some_bestmove (s : Session) :
    ∀ (stream : List String) (acc : Option String) r,
      evalLoop s stream acc = some r → hasBestmove stream = true := by
  intro stream
  induction stream with
  | nil =>
    intro acc r h
    simp [evalLoop] at h
  | cons l rest ih =>
    intro acc r h
    by_cases hb : strStartsWith l "bestmove"
    · simp [hasBestmove, hb]
    · simp only [evalLoop, hb, Bool.false_eq_true, if_false] at h
      have hrest := ih _ _ h
      simp only [hasBestmove] at hrest
      simp only [hasBestmove, List.any_cons, hrest, Bool.or_true]

theorem evaluate_eq_finishEval (s : Session) (g : Nat) (dep mt : Option Int)
    (stream : List String) (hs : s.stockfish = some g)
    (hbm : hasBestmove stream = true) :
    evaluate s dep mt stream
      = finishEval { s with log := s.log ++ [.cmd ("go " ++ String.intercalate " "
          ((match dep with | none => [] | some d => ["depth", toString d]) ++
           (match mt with | none => [] | some m => ["movetime", toString m])))] }
          (authoritativeInfo stream) (restAfterBestmove stream) := by
  simp only [evaluate, send_command, hs]
  rw [evalLoop_spec _ _ _ hbm]
  rw [Option.or_none]

/-- C7 (amended): with a live subprocess and a terminal `bestmove` line in the
script, `evaluate` raises a fatal, non-recoverable error if and only if EITHER
no line starting with `"info"` was read before the `bestmove` marker OR the
authoritative (most recent) info line contains no `"score"` token; otherwise
the score is taken from that most recent info line.  (The claim as frozen
makes the fatal outcome equivalent to the absence of info lines alone; the
counterexample shows a fatal `ValueError` on a stream whose info line merely
lacks a score token.) -/
theorem evaluate_fatal_iff (s : Session) (g : Nat) (dep mt : Option Int)
    (stream : List String) (hs : s.stockfish = some g)
    (hbm : hasBestmove stream = true) :
    ((∃ e, evaluate s dep mt stream = some (.error e)) ↔
      (authoritativeInfo stream = none ∨
        ∃ i, authoritativeInfo stream = some i ∧
          (pySplit i).findIdx? (fun t => t = "score") = none)) ∧
    (∀ i idx, authoritativeInfo stream = some i →
        (pySplit i).findIdx? (fun t => t = "score") = some idx →
        ∃ s', evaluate s dep mt stream
          = some (.ok (String.intercalate " " (((pySplit i).drop (idx + 1)).take 2), s',
              restAfterBestmove stream))) := by
  have heval := evaluate_eq_finishEval s g dep mt stream hs hbm
  constructor
  · constructor
    · rintro ⟨e, he⟩
      rw [heval] at he
      cases hA : authoritativeInfo stream with
      | none => exact Or.inl rfl
      | some i =>
        rw [hA] at he
        simp only [finishEval] at he
        cases hidx : (pySplit i).findIdx? (fun t => t = "score") with
        | none => exact Or.inr ⟨i, rfl, hidx⟩
        | some idx =>
          rw [hidx] at he
          simp at he
    · intro h
      rw [heval]
      rcases h with hA | ⟨i, hA, hidx⟩
      · rw [hA]
        exact ⟨.runtimeError, rfl⟩
      · rw [hA]
        simp only [finishEval]
        rw [hidx]
        exact ⟨.valueError, rfl⟩
  · intro i idx hA hidx
    rw [heval, hA]
    simp only [finishEval]
    rw [hidx]
    exact ⟨_, rfl⟩

theorem evaluate_fatal_iff_witness :
    ∃ e, evaluate ⟨some 0, 1, []⟩ none none ["bestmove a"] = some (.error e) :=
  (evaluate_fatal_iff ⟨some 0, 1, []⟩ 0 none none ["bestmove a"] rfl rfl).1.2
    (Or.inl rfl)

/-- C7 (counterexample to the claim as frozen): on the script
`["info depth 1", "bestmove a"]` an info line IS read before the terminal
`bestmove` marker, yet `evaluate` still raises a fatal error (the `ValueError`
from `info_split.index("score")`), because the info line has no `score`
token — so "fatal iff no info line" fails in the only-if direction. -/
theorem evaluate_fatal_despite_info_cex :
    evaluate ⟨some 0, 1, []⟩ none none ["info depth 1", "bestmove a"]
      = some (.error .valueError) ∧
    authoritativeInfo ["info depth 1", "bestmove a"] = some "info depth 1" :=
  ⟨rfl, rfl⟩

/-- C1 (amended): for every successful evaluation call, `evaluate` returns,
as a plain unparsed string, the two whitespace-separated tokens immediately
following the first `"score"` token of the authoritative (last) info line
seen before the `bestmove` marker, joined by a single blank.  It neither
parses them into a discriminated centipawn/mate integer value nor attaches
the elapsed wall-clock duration (the caller measures that separately). -/
theorem evaluate_raw_score_string (s : Session) (g : Nat) (dep mt : Option Int)
    (stream : List String) (v : String) (s' : Session) (rest : List String)
    (hs : s.stockfish = some g)
    (hok : evaluate s dep mt stream = some (.ok (v, s', rest))) :
    ∃ i idx, authoritativeInfo stream = some i ∧
      (pySplit i).findIdx? (fun t => t = "score") = some idx ∧
      v = String.intercalate " " (((pySplit i).drop (idx + 1)).take 2) := by
  have hbm : hasBestmove stream = true := by
    have h := hok
    simp only [evaluate, send_command, hs] at h
    exact evalLoop_some_bestmove _ stream none _ h
  have heval := evaluate_eq_finishEval s g dep mt stream hs hbm
  rw [heval] at hok
  cases hA : authoritativeInfo stream with
  | none =>
    rw [hA] at hok
    simp [finishEval] at hok
  | some i =>
    rw [hA] at hok
    simp only [finishEval] at hok
    cases hidx : (pySplit i).findIdx? (fun t => t = "score") with
    | none =>
      rw [hidx] at hok
      simp at hok
    | some idx =>
      rw [hidx] at hok
      simp at hok
      exact ⟨i, idx, rfl, hidx, hok.1.symm⟩

theorem evaluate_raw_score_string_witness :
    ∃ i idx, authoritativeInfo ["info depth 3 score mate -2 pv", "bestmove q"] = some i ∧
      (pySplit i).findIdx? (fun t => t = "score") = some idx ∧
      "mate -2" = String.intercalate " " (((pySplit i).drop (idx + 1)).take 2) :=
  evaluate_raw_score_string ⟨some 0, 1, []⟩ 0 none none
    ["info depth 3 score mate -2 pv", "bestmove q"] "mate -2"
    ⟨some 0, 1, [.cmd "go "]⟩ [] rfl rfl

/-- C1 (counterexample to the claim as frozen): `evaluate` succeeds on the
script `["info score cp banana", "bestmove a"]` and returns the raw string
`"cp banana"`, which is not a centipawn or mate-in-N value over a signed
integer (the spec-modelled `parseEvaluationResult` rejects it), and the
returned value carries no elapsed-duration component — the duration is
measured by the caller (`main`), not by `evaluate`. -/
theorem evaluate_not_discriminated_cex :
    evaluate ⟨some 0, 1, []⟩ none none ["info score cp banana", "bestmove a"]
      = some (.ok ("cp banana", ⟨some 0, 1, [.cmd "go "]⟩, [])) ∧
    parseEvaluationResult "cp banana" = none :=
  ⟨rfl, rfl⟩
